import Mathlib

/-!
Verification of the attachment reconciliation engine (src/main.ts) against its
natural-language specification.  The TypeScript source is embedded shallowly:
pure string functions become Lean functions on `List Char` / `String`, the
vault and the note's reference cache become explicit state records, and the
host (Obsidian) collaborators that are not part of the repository are modelled
from the specification's interface contracts where noted.
-/

namespace VAttach

/-- Character class of the filesystem-illegal characters from
`sanitizeName`'s first regex: `[\\/:"*?<>|]`. -/
def isIllegalChar (c : Char) : Bool :=
  c = '\\' || c = '/' || c = ':' || c = '"' || c = '*' || c = '?' ||
  c = '<' || c = '>' || c = '|'

/-- JavaScript `\s` (restricted to the ASCII whitespace actually arising in
vault paths): space, tab, newline, carriage return, vertical tab, form feed. -/
def isWsChar (c : Char) : Bool :=
  c = ' ' || c = '\t' || c = '\n' || c = '\r' || c = '\x0b' || c = '\x0c'

/-- Worker for `collapseRuns`: `inRun` records whether the previous character
belonged to the class `p` (so the current run has already emitted its
replacement character). -/
def collapseRunsAux (p : Char → Bool) (r : Char) : Bool → List Char → List Char
  | _, [] => []
  | inRun, c :: cs =>
    if p c then
      if inRun then collapseRunsAux p r true cs
      else r :: collapseRunsAux p r true cs
    else c :: collapseRunsAux p r false cs

/-- Replace every maximal run of characters satisfying `p` by the single
character `r` (the semantics of `.replace(/[...]+/g, r)` for a character
class). -/
def collapseRuns (p : Char → Bool) (r : Char) (l : List Char) : List Char :=
  collapseRunsAux p r false l

/-- JavaScript `String.prototype.trim`: drop leading and trailing whitespace. -/
def trimWs (l : List Char) : List Char :=
  ((l.dropWhile isWsChar).reverse.dropWhile isWsChar).reverse

/-- `sanitizeName` (src/main.ts line 419) on character lists:
`.replace(/[\\/:"*?<>|]+/g, '-').replace(/\s+/g, ' ').trim()`. -/
def sanitizeL (l : List Char) : List Char :=
  trimWs (collapseRuns isWsChar ' ' (collapseRuns isIllegalChar '-' l))

/-- `sanitizeName(name)` from src/main.ts: replace every run of
filesystem-illegal characters with a hyphen, collapse whitespace runs to a
single space, and trim. -/
def sanitizeName (s : String) : String := ⟨sanitizeL s.data⟩

/-- Does `pat` occur as a contiguous substring of `s`?  (JavaScript
`String.prototype.includes`.) -/
def containsSub (s pat : List Char) : Bool :=
  match s with
  | [] => pat.isEmpty
  | _ :: cs => pat.isPrefixOf s || containsSub cs pat

/-- Process a JavaScript replacement string (ECMAScript `GetSubstitution`):
`$$` is a literal dollar, `$&` the matched text, a dollar followed by a
backquote (code 96) the text before the match, a dollar followed by an
apostrophe (code 39) the text after the match; any other `$`-sequence is kept
verbatim (the regexes in the source have no capture groups). -/
def procRep (matched before after : List Char) : List Char → List Char
  | [] => []
  | [c] => [c]
  | c1 :: c2 :: rest =>
    if c1 = '$' then
      if c2 = '$' then '$' :: procRep matched before after rest
      else if c2 = '&' then matched ++ procRep matched before after rest
      else if c2.toNat = 96 then before ++ procRep matched before after rest
      else if c2.toNat = 39 then after ++ procRep matched before after rest
      else c1 :: procRep matched before after (c2 :: rest)
    else c1 :: procRep matched before after (c2 :: rest)

/-- Worker for `jsReplaceAll`.  `pre` is the already-consumed portion of the
input (the before-context for `$`-escapes); the fuel starts at the input
length and each step consumes at least one character. -/
def jsrGo (pat rep : List Char) : Nat → List Char → List Char → List Char
  | _, _, [] => []
  | 0, _, s => s
  | fuel + 1, pre, c :: cs =>
    if pat.isPrefixOf (c :: cs) then
      procRep pat pre (List.drop pat.length (c :: cs)) rep ++
        jsrGo pat rep fuel (pre ++ pat) (List.drop pat.length (c :: cs))
    else c :: jsrGo pat rep fuel (pre ++ [c]) cs

/-- JavaScript `s.replace(/pat/g, rep)` for a literal pattern `pat`:
leftmost, non-overlapping occurrences of `pat` are replaced by `rep`
(with `$`-escape processing); the replaced text is not rescanned. -/
def jsReplaceAll (s pat rep : List Char) : List Char :=
  if pat.isEmpty then s else jsrGo pat rep s.length [] s

/-- The template variables built by `processNoteAttachments`
(src/main.ts lines 260-266). -/
structure TemplateVars where
  filename : String
  original : String
  extension : String
  date : String
  index : String
deriving DecidableEq, Repr

/-- JavaScript `a || b` on strings: the empty string is falsy. -/
def strOr (s fallback : String) : String :=
  if s = "" then fallback else s

/-- `applyVariables(pattern, vars)` from src/main.ts lines 402-409: five
sequential global replaces, one per recognized variable, each with its
documented fallback. -/
def applyVariables (pattern : String) (v : TemplateVars) : String :=
  let s1 := jsReplaceAll pattern.data "${filename}".data (strOr v.filename "note").data
  let s2 := jsReplaceAll s1 "${original}".data (strOr v.original "file").data
  let s3 := jsReplaceAll s2 "${extension}".data (strOr v.extension "").data
  let s4 := jsReplaceAll s3 "${date}".data (strOr v.date "").data
  let s5 := jsReplaceAll s4 "${index}".data (strOr v.index "01").data
  ⟨s5⟩

/-- Decimal digits of a natural number (JavaScript `Number.prototype.toString`
for the non-negative integers used by the source), with structural fuel. -/
def natStrGo : Nat → Nat → List Char
  | 0, _ => []
  | fuel + 1, n =>
    if n < 10 then [Nat.digitChar n]
    else natStrGo fuel (n / 10) ++ [Nat.digitChar (n % 10)]

/-- Decimal rendering of a natural number. -/
def natStr (n : Nat) : String := ⟨natStrGo (n + 1) n⟩

/-- JavaScript `.padStart(2, '0')`. -/
def padTwo (s : String) : String :=
  if s.length < 2 then ⟨List.replicate (2 - s.length) '0' ++ s.data⟩ else s

/-- The separator class `[\s-_]` of `getCleanOriginalName`'s regex:
whitespace, hyphen or underscore. -/
def isSepChar (c : Char) : Bool := isWsChar c || c = '-' || c = '_'

/-- Length of the maximal leading run of separator characters. -/
def sepRunLen : List Char → Nat
  | [] => 0
  | c :: cs => if isSepChar c then sepRunLen cs + 1 else 0

/-- Backtracking worker for `tryMatch`: try to place the literal `old` after
`a` leading separator characters, preferring the largest `a` (greedy `[\s-_]*`
with backtracking), and extend greedily over trailing separators.  Returns the
total length of the match. -/
def tryMatchA (s old : List Char) : Nat → Option Nat
  | 0 =>
    if old.isPrefixOf s then some (old.length + sepRunLen (s.drop old.length))
    else none
  | a + 1 =>
    if old.isPrefixOf (s.drop (a + 1)) then
      some ((a + 1) + old.length + sepRunLen (s.drop (a + 1 + old.length)))
    else tryMatchA s old a

/-- Match the regex `[\s-_]*old[\s-_]*` at the start of `s` (literal `old`,
as produced by the source's regex escaping), returning the match length. -/
def tryMatch (s old : List Char) : Option Nat :=
  if old.isEmpty then none else tryMatchA s old (sepRunLen s)

/-- Global replace of `[\s-_]*old[\s-_]*` by a single space (the
`clean.replace(regex, ' ')` of src/main.ts line 340), with structural fuel. -/
def stripGo (old : List Char) : Nat → List Char → List Char
  | _, [] => []
  | 0, s => s
  | fuel + 1, c :: cs =>
    match tryMatch (c :: cs) old with
    | some len => ' ' :: stripGo old fuel (List.drop (len - 1) cs)
    | none => c :: stripGo old fuel cs

/-- Replace every occurrence of `old` together with its surrounding
separator padding by a single space. -/
def stripOldRegex (s old : List Char) : List Char := stripGo old s.length s

/-- `getCleanOriginalName(currentBase, oldNoteName)` from src/main.ts lines
334-344.  A `null` or empty old name (JavaScript falsiness) returns the base
unchanged; otherwise, if the old name occurs in the base, every occurrence
with its separator padding is replaced by a single space and the result is
trimmed; an empty final result falls back to `"Attachment"`. -/
def getCleanOriginalName (currentBase : String) (oldNoteName : Option String) : String :=
  match oldNoteName with
  | none => currentBase
  | some old =>
    if old = "" then currentBase
    else
      let clean :=
        if containsSub currentBase.data old.data then
          (⟨trimWs (stripOldRegex currentBase.data old.data)⟩ : String)
        else currentBase
      if clean = "" then "Attachment" else clean

/-- JavaScript `toLowerCase` restricted to ASCII, character by character. -/
def lowerStr (s : String) : String := ⟨s.data.map Char.toLower⟩

/-- `String.startsWith`, character-wise: is `pre` a prefix of `s`? -/
def startsWithL (s pre : String) : Bool := pre.data.isPrefixOf s.data

/-- `String.drop`, character-wise. -/
def dropStr (s : String) (n : Nat) : String := ⟨s.data.drop n⟩

/-- Split a character list at every occurrence of `c` (the behavior of
JavaScript `String.prototype.split` with a single-character separator); the
result is always non-empty. -/
def splitOnChar (c : Char) : List Char → List (List Char)
  | [] => [[]]
  | x :: xs =>
    match splitOnChar c xs with
    | [] => [[]]
    | h :: t => if x = c then [] :: h :: t else (x :: h) :: t

/-- Map backslashes to forward slashes. -/
def slashify (c : Char) : Char := if c = '\\' then '/' else c

/-- Join character lists with a single separator character (the semantics of
`List.intercalate [c]`, defined recursively for easy proofs). -/
def joinChar (c : Char) : List (List Char) → List Char
  | [] => []
  | [a] => a
  | a :: b :: rest => a ++ c :: joinChar c (b :: rest)

/-- Modelled from the spec: the host's `normalizePath` collaborator ("path
strings follow the host's forward-slash-normalized convention") — separators
become forward slashes, runs of slashes collapse, and leading/trailing
slashes are dropped. -/
def normalizePath (p : String) : String :=
  ⟨joinChar '/' ((splitOnChar '/' (p.data.map slashify)).filter (fun l => !l.isEmpty))⟩

/-- Last path component (the host `TFile.name`). -/
def nameOf (p : String) : List Char :=
  (splitOnChar '/' p.data).getLastD []

/-- Modelled from the spec: the host `TFile.parent.path` — the path of the
containing folder, `"/"` for a top-level file. -/
def parentOf (p : String) : String :=
  let comps := splitOnChar '/' p.data
  if comps.length ≤ 1 then "/" else ⟨joinChar '/' comps.dropLast⟩

/-- Modelled from the spec: the host `TFile.extension` — the part of the file
name after its last dot, empty when the name has no dot. -/
def extOf (p : String) : String :=
  let parts := splitOnChar '.' (nameOf p)
  if parts.length ≤ 1 then "" else ⟨parts.getLastD []⟩

/-- Modelled from the spec: the host `TFile.basename` — the file name with its
final `.extension` removed. -/
def basenameOf (p : String) : String :=
  let parts := splitOnChar '.' (nameOf p)
  if parts.length ≤ 1 then ⟨nameOf p⟩ else ⟨joinChar '.' parts.dropLast⟩

/-- Kind of a vault entry, the closed variant the spec prescribes for the
host's `TFile`/`TFolder` runtime classes. -/
inductive VKind where
  | file : VKind
  | folder : VKind
deriving DecidableEq, Repr

/-- The vault as a finite map from normalized path to entry kind
(the host `vault.getAbstractFileByPath` collaborator). -/
abbrev Vault := List (String × VKind)

/-- `getAbstractFileByPath`: first entry with the given path, if any. -/
def vaultGet (vault : Vault) (p : String) : Option VKind :=
  List.lookup p vault

/-- `ScopeMode` from src/main.ts line 17. -/
inductive ScopeMode where
  | vault : ScopeMode
  | include_ : ScopeMode
  | exclude : ScopeMode
deriving DecidableEq, Repr

/-- `LocationMode` from src/main.ts line 18. -/
inductive LocationMode where
  | pattern : LocationMode
  | original : LocationMode
deriving DecidableEq, Repr

/-- `AttachmentRule` from src/main.ts lines 20-27.  `loadSettings` guarantees
`locationMode` is present, defaulting it to `pattern`. -/
structure AttachmentRule where
  id : String
  label : String
  extensions : List String
  namePattern : String
  pathPattern : String
  locationMode : LocationMode
deriving DecidableEq, Repr

/-- `PluginSettings` from src/main.ts lines 29-37. -/
structure PluginSettings where
  scopeMode : ScopeMode
  watchedPaths : List String
  rules : List AttachmentRule
  defaultNamePattern : String
  defaultPathPattern : String
  enableAutoRename : Bool
  debounceDelay : Nat
deriving DecidableEq, Repr

/-- `isScopeValid(filePath)` from src/main.ts lines 379-393. -/
def isScopeValid (settings : PluginSettings) (filePath : String) : Bool :=
  if settings.scopeMode = ScopeMode.vault then true
  else
    let normalizedFilePath := normalizePath filePath
    let validWatchedPaths :=
      (settings.watchedPaths.map normalizePath).filter (fun p => p ≠ "" && p ≠ "/")
    if validWatchedPaths.isEmpty then true
    else
      let isMatch := validWatchedPaths.any (fun folder =>
        normalizedFilePath = folder || startsWithL normalizedFilePath (folder ++ "/"))
      if settings.scopeMode = ScopeMode.include_ then isMatch
      else if settings.scopeMode = ScopeMode.exclude then !isMatch
      else true

/-- `getRuleForExtension(ext)` from src/main.ts lines 395-400: first rule in
declared order whose extension set contains the extension,
case-insensitively. -/
def getRuleForExtension (settings : PluginSettings) (ext : String) : Option AttachmentRule :=
  let lowerExt := lowerStr ext
  settings.rules.find? (fun r => r.extensions.any (fun e => lowerStr e = lowerExt))

/-- `resolveTargetPath(pathPattern, noteFile)` from src/main.ts lines 346-355:
a pattern starting with `./` is relative to the note's parent folder, anything
else is an absolute vault path. -/
def resolveTargetPath (pathPattern : String) (notePath : String) : String :=
  if startsWithL pathPattern "./" then
    let parentPath := parentOf notePath
    let cleanRel := dropStr pathPattern 2
    if parentPath = "/" then normalizePath cleanRel
    else normalizePath (parentPath ++ "/" ++ cleanRel)
  else normalizePath pathPattern

/-- The `n`-th path probed by `resolveCollision`: the desired path first, then
`"{targetFolder}/{baseName} {n}.{ext}"`. -/
def candPath (targetFolder baseName ext desiredPath : String) : Nat → String
  | 0 => desiredPath
  | n + 1 => normalizePath (targetFolder ++ "/" ++ baseName ++ " " ++ natStr (n + 1) ++ "." ++ ext)

/-- The `while (suffix < maxRetries)` loop of `resolveCollision`
(src/main.ts lines 368-375), recursing structurally on the remaining fuel
(`maxRetries - suffix`).  A probed path that is unoccupied, or occupied by the
file being renamed itself, is returned; otherwise the next suffixed candidate
is tried; an exhausted bound returns the file's current path. -/
def rcGo (vault : Vault) (currentPath ext targetFolder baseName : String) :
    String → Nat → Nat → String
  | _, _, 0 => currentPath
  | finalPath, suffix, fuel + 1 =>
    match vaultGet vault finalPath with
    | none => finalPath
    | some _ =>
      if finalPath = currentPath then finalPath
      else
        rcGo vault currentPath ext targetFolder baseName
          (normalizePath (targetFolder ++ "/" ++ baseName ++ " " ++ natStr (suffix + 1) ++ "." ++ ext))
          (suffix + 1) fuel

/-- `resolveCollision(desiredPath, currentFile, targetFolder, baseName)` from
src/main.ts lines 357-377, with `maxRetries = 500` and `ext` the current
file's extension. -/
def resolveCollision (vault : Vault) (desiredPath currentPath ext targetFolder baseName : String) : String :=
  rcGo vault currentPath ext targetFolder baseName desiredPath 0 500

/-- `ensureFolderExists(path)` from src/main.ts lines 423-432: no-op for the
root-ish paths, no-op when a folder already exists, an error when a file
occupies the path, and otherwise the folder is created. -/
def ensureFolderExists (vault : Vault) (path : String) : Except Unit Vault :=
  if path = "" || path = "/" || path = "." then Except.ok vault
  else
    let normalized := normalizePath path
    match vaultGet vault normalized with
    | some VKind.folder => Except.ok vault
    | some VKind.file => Except.error ()
    | none => Except.ok ((normalized, VKind.folder) :: vault)

/-- The environment of a reconciliation pass: the configuration plus the host
behaviors that are inputs to the engine.  `today` is the host clock as
formatted by `getFormattedDate`; `renameOk` tells whether the host
`fileManager.renameFile` primitive succeeds for a given (current path, new
path) pair (the spec's interface contract says it "may fail"); `hostFault` is
modelled from the spec's error taxonomy ("Pass-level: any uncaught exception
during a document's reconciliation"): when set, the host throws into the
engine's outer try block. -/
structure Env where
  settings : PluginSettings
  today : String
  renameOk : String → String → Bool
  hostFault : Bool

/-- The world a pass observes and mutates: the vault, the processed note's
reference lists (`cache.embeds` and `cache.links`, each reference given by its
link text), and whether the metadata cache is available at all. -/
structure WorldSt where
  vault : Vault
  embeds : List String
  links : List String
  cacheAvailable : Bool
deriving DecidableEq, Repr

/-- State carried through the per-target loop of `processNoteAttachments`
(src/main.ts lines 236-319), together with the world it mutates.  `renamedTo`
tracks, per original path, the live current path of the host `TFile` object a
target holds (the host mutates `file.path` when a file is renamed). -/
structure LoopSt where
  vault : Vault
  embeds : List String
  links : List String
  processedPaths : List String
  checkedFolders : List String
  renamedTo : List (String × String)
  renameCount : Nat
deriving DecidableEq, Repr

/-- `ref.link.split('#')[0].split('^')[0]` (src/main.ts line 218). -/
def cleanLink (l : String) : String :=
  ⟨(l.data.takeWhile (fun c => c ≠ '#')).takeWhile (fun c => c ≠ '^')⟩

/-- Modelled from the spec: the host `getFirstLinkpathDest` link-resolution
collaborator (`resolveLinkPath(linkText, contextPath) -> File | none`) —
a link resolves to the file at that vault path when one exists. -/
def resolveLink (vault : Vault) (link : String) : Option String :=
  match vaultGet vault link with
  | some VKind.file => some link
  | _ => none

/-- Discovery (src/main.ts lines 206-231): the combined embed+link list in
order, each reference resolved to a concrete file, keeping only resolved
files that are not markdown documents and not the note itself, paired with
the reference's index in the combined list. -/
def buildTargets (vault : Vault) (embeds links : List String) (notePath : String) :
    List (String × Nat) :=
  ((embeds ++ links).enum).filterMap (fun ni =>
    match resolveLink vault (cleanLink ni.2) with
    | some p =>
      if extOf p ≠ "md" && p ≠ notePath then some (p, ni.1) else none
    | none => none)

/-- The live current path of the `TFile` captured at discovery under
`originalPath` (renames performed earlier in the same pass mutate it). -/
def livePath (renamedTo : List (String × String)) (originalPath : String) : String :=
  match List.lookup originalPath renamedTo with
  | some p => p
  | none => originalPath

/-- Modelled from the spec: the host `renameFile` primitive moves the vault
entry and atomically rewrites every referencing link. -/
def renameInVault (vault : Vault) (oldPath newPath : String) : Vault :=
  (newPath, VKind.file) :: vault.filter (fun e => e.1 ≠ oldPath)

/-- Modelled from the spec: the link rewriting `renameFile` performs on the
note's references. -/
def rewriteLinks (refs : List String) (oldPath newPath : String) : List String :=
  refs.map (fun l => if cleanLink l = oldPath then newPath else l)

/-- The base-name computation of src/main.ts lines 268-269: expand the name
pattern, sanitize it, and fall back to `"attachment"` when empty. -/
def computeBaseName (namePattern : String) (vars : TemplateVars) : String :=
  let newBaseName := sanitizeName (applyVariables namePattern vars)
  if newBaseName.length = 0 then "attachment" else newBaseName

/-- The target-folder computation of src/main.ts lines 273-282: the
attachment's current parent folder under `original` mode, the resolved path
pattern under `pattern` mode. -/
def computeTargetFolder (mode : LocationMode) (pathPattern notePath curPath : String) : String :=
  if mode = LocationMode.original then parentOf curPath
  else resolveTargetPath pathPattern notePath

/-- The template variable set of src/main.ts lines 258-266: the note's
basename, the cleaned original base, the attachment's extension, today's
date, and the 1-based reference index zero-padded to width 2. -/
def mkVars (env : Env) (notePath : String) (oldNoteName : Option String)
    (curPath : String) (index : Nat) : TemplateVars :=
  { filename := basenameOf notePath
    original := getCleanOriginalName (basenameOf curPath) oldNoteName
    extension := extOf curPath
    date := env.today
    index := padTwo (natStr (index + 1)) }

/-- The per-target body after rule resolution (src/main.ts lines 251-318):
compute the cleaned original base, expand and sanitize the name pattern,
compute the target folder and desired path, short-circuit when the desired or
collision-resolved path equals the current path, otherwise ensure the target
folder exists (errors caught per item) and invoke the host rename. -/
def processTargetCore (env : Env) (notePath : String) (oldNoteName : Option String)
    (namePattern pathPattern : String) (mode : LocationMode)
    (ls : LoopSt) (originalPath curPath : String) (index : Nat) : LoopSt :=
  let vars := mkVars env notePath oldNoteName curPath index
  let newBaseName := computeBaseName namePattern vars
  let newFileName := newBaseName ++ "." ++ extOf curPath
  let targetFolderPath := computeTargetFolder mode pathPattern notePath curPath
  let desiredPath := normalizePath (targetFolderPath ++ "/" ++ newFileName)
  if desiredPath = curPath then
    { ls with processedPaths := curPath :: ls.processedPaths }
  else
    let finalPath :=
      resolveCollision ls.vault desiredPath curPath (extOf curPath) targetFolderPath newBaseName
    if finalPath = curPath then
      { ls with processedPaths := curPath :: ls.processedPaths }
    else
      let needEnsure := !ls.checkedFolders.contains targetFolderPath && mode ≠ LocationMode.original
      match (if needEnsure then ensureFolderExists ls.vault targetFolderPath
             else Except.ok ls.vault) with
      | Except.error _ => ls
      | Except.ok vault' =>
        let checked' :=
          if needEnsure then targetFolderPath :: ls.checkedFolders else ls.checkedFolders
        if env.renameOk curPath finalPath then
          { vault := renameInVault vault' curPath finalPath
            embeds := rewriteLinks ls.embeds curPath finalPath
            links := rewriteLinks ls.links curPath finalPath
            processedPaths := finalPath :: ls.processedPaths
            checkedFolders := checked'
            renamedTo := (originalPath, finalPath) :: ls.renamedTo
            renameCount := ls.renameCount + 1 }
        else
          { ls with vault := vault', checkedFolders := checked' }

/-- One iteration of the per-target loop (src/main.ts lines 241-319): skip
targets already finalized in this pass, targets no longer present in the
vault, and — when the rule list is non-empty — targets whose extension no
rule matches; otherwise process with the rule's patterns or the configured
defaults. -/
def processTarget (env : Env) (notePath : String) (oldNoteName : Option String)
    (ls : LoopSt) (t : String × Nat) : LoopSt :=
  let curPath := livePath ls.renamedTo t.1
  if ls.processedPaths.contains curPath then ls
  else if (vaultGet ls.vault curPath).isNone then ls
  else
    match getRuleForExtension env.settings (extOf curPath) with
    | none =>
      if env.settings.rules.length > 0 then ls
      else
        processTargetCore env notePath oldNoteName
          env.settings.defaultNamePattern env.settings.defaultPathPattern
          LocationMode.pattern ls t.1 curPath t.2
    | some r =>
      processTargetCore env notePath oldNoteName
        r.namePattern r.pathPattern r.locationMode ls t.1 curPath t.2

/-- The cache polling of src/main.ts lines 193-202: in a pure world the
bounded retries observe the same availability every time. -/
def cacheAfterRetries (avail : Bool) : Nat → Bool
  | 0 => avail
  | n + 1 => if avail then true else cacheAfterRetries avail n

/-- The body of `processNoteAttachments` inside its outer try
(src/main.ts lines 192-325): cache retrieval with retries, discovery, and the
per-target rename loop.  The error case is the spec's pass-level uncaught
exception, raised here by the modelled `hostFault`. -/
def passBody (env : Env) (w : WorldSt) (notePath : String) (oldNoteName : Option String) :
    Except Unit (Nat × WorldSt) :=
  if env.hostFault then Except.error ()
  else if !cacheAfterRetries w.cacheAvailable 10 then Except.ok (0, w)
  else if (w.embeds ++ w.links).isEmpty then Except.ok (0, w)
  else
    let targets := buildTargets w.vault w.embeds w.links notePath
    if targets.isEmpty then Except.ok (0, w)
    else
      let ls0 : LoopSt :=
        { vault := w.vault, embeds := w.embeds, links := w.links
          processedPaths := [], checkedFolders := [], renamedTo := [], renameCount := 0 }
      let ls := targets.foldl (processTarget env notePath oldNoteName) ls0
      Except.ok (ls.renameCount,
        { w with vault := ls.vault, embeds := ls.embeds, links := ls.links })

/-- The engine state threaded between passes: the world plus the in-flight
processing set (`isProcessing`). -/
structure PState where
  world : WorldSt
  inflight : List String
deriving DecidableEq, Repr

/-- `processNoteAttachments(noteFile, oldNoteName)` from src/main.ts lines
188-332: the in-flight guard returns 0 immediately for a document already
being processed; otherwise the path is added to the set, the body runs, and —
on normal return or on a thrown error (which yields 0) — the path is removed
again (`finally`). -/
def processNoteAttachments (env : Env) (st : PState) (notePath : String)
    (oldNoteName : Option String) : Nat × PState :=
  if st.inflight.contains notePath then (0, st)
  else
    let inflight1 := notePath :: st.inflight
    match passBody env st.world notePath oldNoteName with
    | Except.ok (n, w') => (n, { world := w', inflight := inflight1.erase notePath })
    | Except.error _ => (0, { world := st.world, inflight := inflight1.erase notePath })

/-- `getFileNameFromPath(path)` from src/main.ts lines 141-145: the last path
component with a trailing `.md` removed. -/
def getFileNameFromPath (path : String) : String :=
  let fileNameWithExt := nameOf path
  if ['.', 'm', 'd'].isSuffixOf fileNameWithExt then
    ⟨fileNameWithExt.take (fileNameWithExt.length - 3)⟩
  else ⟨fileNameWithExt⟩

/-- State of the debounce/coalescing scheduler: the registry of pending
timers (document path, absolute fire time, pending `oldNoteName` argument)
and the log of reconciliation-engine invocations performed so far. -/
structure SchedState where
  registry : List (String × Nat × Option String)
  fired : List (String × Option String)
deriving DecidableEq, Repr

/-- Modelled from the spec (§4.6, the host `debounce` with timer reset):
`triggerDebouncedProcessing` (src/main.ts lines 147-163) looks up or creates
the per-path debounced invocation and calls it, which (re)sets the pending
timer to `now + delay` with the latest arguments; the registry keeps at most
one entry per path. -/
def schedTrigger (delay now : Nat) (path : String) (old : Option String)
    (s : SchedState) : SchedState :=
  { s with registry := (path, now + delay, old) :: s.registry.filter (fun e => e.1 ≠ path) }

/-- Modelled from the spec (§4.6): every pending timer whose fire time has
been reached fires — the engine is invoked and the entry is removed from the
registry. -/
def schedFireDue (now : Nat) (s : SchedState) : SchedState :=
  { registry := s.registry.filter (fun e => !(e.2.1 ≤ now))
    fired := s.fired ++ (s.registry.filter (fun e => e.2.1 ≤ now)).map (fun e => (e.1, e.2.2)) }

/-- The `vault.on('rename')` handler of src/main.ts lines 117-128: ignore
when auto-rename is disabled, when the renamed file is not a markdown
document, or when it is out of scope; otherwise debounce a pass with the old
note name extracted from the old path. -/
def onRenameEvent (settings : PluginSettings) (now : Nat) (filePath oldPath : String)
    (s : SchedState) : SchedState :=
  if !settings.enableAutoRename then s
  else if extOf filePath = "md" && isScopeValid settings filePath then
    schedTrigger settings.debounceDelay now filePath (some (getFileNameFromPath oldPath)) s
  else s

/-- One scheduler step for a rename event `(time, newPath, oldPath)`: timers
due by that time fire first, then the event is handled. -/
def schedStep (settings : PluginSettings) (s : SchedState) (ev : Nat × String × String) :
    SchedState :=
  onRenameEvent settings ev.1 ev.2.1 ev.2.2 (schedFireDue ev.1 s)

/-- Run the scheduler over a time-ordered list of rename events and then let
every timer due by `endTime` fire. -/
def schedRun (settings : PluginSettings) (evs : List (Nat × String × String))
    (endTime : Nat) : SchedState :=
  schedFireDue endTime (evs.foldl (schedStep settings) { registry := [], fired := [] })

/-- A configuration with no rules at all: the defaults apply to every
attachment. -/
def noRuleSettings : PluginSettings :=
  { scopeMode := ScopeMode.vault
    watchedPaths := []
    rules := []
    defaultNamePattern := "${filename} ${original}"
    defaultPathPattern := "./attachments"
    enableAutoRename := true
    debounceDelay := 2000 }

/-- A rule routing `png`/`jpg` files into `./assets`. -/
def pngRule : AttachmentRule :=
  { id := "r1", label := "Images", extensions := ["png", "jpg"]
    namePattern := "${filename} ${original}", pathPattern := "./assets"
    locationMode := LocationMode.pattern }

/-- A configuration whose only rule is `pngRule` (a non-empty rule list, so
the allowlist policy is active). -/
def pngOnlySettings : PluginSettings :=
  { noRuleSettings with rules := [pngRule] }

/-- An environment over `noRuleSettings` with an always-succeeding host
rename and no host fault. -/
def plainEnv : Env :=
  { settings := noRuleSettings
    today := "20260101"
    renameOk := fun _ _ => true
    hostFault := false }

/-- `plainEnv` with the allowlist configuration. -/
def pngOnlyEnv : Env := { plainEnv with settings := pngOnlySettings }

/-- `plainEnv` with a host fault: the pass's outer try observes a thrown
exception. -/
def faultEnv : Env := { plainEnv with hostFault := true }

/-- A one-note, one-attachment world: `Note.md` embeds `pic.png`, both at the
vault root. -/
def picWorld : WorldSt :=
  { vault := [("Note.md", VKind.file), ("pic.png", VKind.file)]
    embeds := ["pic.png"]
    links := []
    cacheAvailable := true }

/-- An empty loop state over `picWorld`'s vault, as built at the start of the
per-target loop. -/
def picLoopSt : LoopSt :=
  { vault := picWorld.vault, embeds := picWorld.embeds, links := picWorld.links
    processedPaths := [], checkedFolders := [], renamedTo := [], renameCount := 0 }

/-- A probed path is "occupied by another file" when some vault entry sits at
it and it is not the path of the file being renamed (the two return
conditions of `resolveCollision`'s loop, negated). -/
def occupiedByOther (vault : Vault) (currentPath p : String) : Bool :=
  (vaultGet vault p).isSome && decide (p ≠ currentPath)

/-- A well-formed vault path: non-empty, no empty `/`-components (no leading,
trailing or doubled slash) and no backslash — the normal form the host's
path convention guarantees for `TFile.path`. -/
def cleanPath (p : String) : Bool :=
  !p.data.isEmpty && (splitOnChar '/' p.data).all (fun comp => !comp.isEmpty) &&
    p.data.all (fun c => decide (c ≠ '\\'))

/-- A plain path segment: non-empty and free of slashes and backslashes. -/
def plainSeg (l : List Char) : Bool :=
  !l.isEmpty && l.all (fun c => decide (c ≠ '/') && decide (c ≠ '\\'))

theorem jsrGo_no_occurrence (pat rep : List Char) :
    ∀ (s : List Char) (fuel : Nat) (pre : List Char), s.length ≤ fuel →
      containsSub s pat = false → jsrGo pat rep fuel pre s = s := by
  intro s
  induction s with
  | nil => intro fuel pre _ _; cases fuel <;> rfl
  | cons c cs ih =>
    intro fuel pre hf hc
    cases fuel with
    | zero => simp at hf
    | succ fuel =>
      simp only [containsSub, Bool.or_eq_false_iff] at hc
      simp only [jsrGo, hc.1, Bool.false_eq_true, if_false]
      exact congrArg (c :: ·) (ih fuel (pre ++ [c]) (Nat.le_of_succ_le_succ hf) hc.2)

theorem containsSub_nil_right (s : List Char) : containsSub s [] = true := by
  cases s <;> simp [containsSub, List.isPrefixOf]

theorem jsReplaceAll_no_occurrence (s pat rep : List Char)
    (h : containsSub s pat = false) : jsReplaceAll s pat rep = s := by
  have hne : pat.isEmpty = false := by
    cases pat with
    | nil => rw [containsSub_nil_right] at h; exact absurd h (by simp)
    | cons a l => rfl
  unfold jsReplaceAll
  rw [hne]
  exact jsrGo_no_occurrence pat rep s s.length [] (Nat.le_refl _) h

theorem applyVariables_verbatim (p : String) (v : TemplateVars)
    (h1 : containsSub p.data "${filename}".data = false)
    (h2 : containsSub p.data "${original}".data = false)
    (h3 : containsSub p.data "${extension}".data = false)
    (h4 : containsSub p.data "${date}".data = false)
    (h5 : containsSub p.data "${index}".data = false) :
    applyVariables p v = p := by
  simp only [applyVariables]
  rw [jsReplaceAll_no_occurrence _ _ _ h1, jsReplaceAll_no_occurrence _ _ _ h2,
    jsReplaceAll_no_occurrence _ _ _ h3, jsReplaceAll_no_occurrence _ _ _ h4,
    jsReplaceAll_no_occurrence _ _ _ h5]

/-- C10: `applyVariables` applies the documented fallbacks not only for
missing variable values but also for empty-string values (JavaScript `||`
falsiness): an empty `filename` behaves exactly like the value `"note"` and
an empty `original` exactly like `"file"`, so `${filename}` expands to
`"note"` and `${original}` to `"file"`. -/
theorem applyVariables_empty_value_fallback (p f o e d i : String) :
    applyVariables p ⟨"", o, e, d, i⟩ = applyVariables p ⟨"note", o, e, d, i⟩ ∧
    applyVariables p ⟨f, "", e, d, i⟩ = applyVariables p ⟨f, "file", e, d, i⟩ ∧
    applyVariables "${filename}" ⟨"", o, e, d, i⟩ = "note" ∧
    applyVariables "${original}" ⟨f, "", e, d, i⟩ = "file" :=
  ⟨rfl, rfl, rfl, rfl⟩

/-- C7 counterexample: substituted text is NOT left verbatim — a `filename`
value containing the later token `${index}` is itself re-substituted by the
later replacement pass, yielding `"07"` where the claim requires the verbatim
`"${index}"`. -/
theorem applyVariables_resubstitution_counterexample :
    applyVariables "${filename}" ⟨"${index}", "o", "e", "d", "07"⟩ = "07" ∧
    ("07" : String) ≠ "${index}" :=
  ⟨rfl, by decide⟩

/-- C7 (amended): template expansion substitutes the five recognized tokens
sequentially, in the order filename, original, extension, date, index, with
the documented fallbacks; a pattern containing none of the five tokens is
returned verbatim; tokens are substituted (e.g. a two-token pattern expands
to the two values); but text contributed by a substituted value is scanned by
the LATER variables' passes — a value containing a later token is
re-substituted, while a value containing an earlier (or its own) token is
left verbatim. -/
theorem applyVariables_sequential_spec (v : TemplateVars) (p : String) :
    (containsSub p.data "${filename}".data = false →
     containsSub p.data "${original}".data = false →
     containsSub p.data "${extension}".data = false →
     containsSub p.data "${date}".data = false →
     containsSub p.data "${index}".data = false →
     applyVariables p v = p) ∧
    applyVariables "${filename}-${original}" ⟨"A", "B", "c", "d", "e"⟩ = "A-B" ∧
    applyVariables "${original}" ⟨"f", "${date}", "e", "D", "i"⟩ = "D" ∧
    applyVariables "${date}" ⟨"f", "o", "e", "${original}", "i"⟩ = "${original}" :=
  ⟨fun h1 h2 h3 h4 h5 => applyVariables_verbatim p v h1 h2 h3 h4 h5, rfl, rfl, rfl⟩

/-- Witness for `applyVariables_sequential_spec` at a concrete token-free
pattern. -/
theorem applyVariables_sequential_spec_witness :
    applyVariables "abc" ⟨"x", "y", "z", "w", "u"⟩ = "abc" :=
  (applyVariables_sequential_spec ⟨"x", "y", "z", "w", "u"⟩ "abc").1
    (by decide) (by decide) (by decide) (by decide) (by decide)

theorem collapseRunsAux_of_not (p : Char → Bool) (r : Char) :
    ∀ (l : List Char) (b : Bool), (∀ c ∈ l, p c = false) → collapseRunsAux p r b l = l := by
  intro l
  induction l with
  | nil => intro b _; rfl
  | cons c cs ih =>
    intro b h
    have hc := h c (List.mem_cons_self c cs)
    simp only [collapseRunsAux, hc, Bool.false_eq_true, if_false]
    exact congrArg (c :: ·) (ih false fun x hx => h x (List.mem_cons_of_mem c hx))

theorem collapseRunsAux_all_true (p : Char → Bool) (r : Char) :
    ∀ l : List Char, (∀ c ∈ l, p c = true) → collapseRunsAux p r true l = [] := by
  intro l
  induction l with
  | nil => intro _; rfl
  | cons c cs ih =>
    intro h
    have hc := h c (List.mem_cons_self c cs)
    simp only [collapseRunsAux, hc, if_true]
    exact ih fun x hx => h x (List.mem_cons_of_mem c hx)

theorem collapseRuns_all_true (p : Char → Bool) (r : Char) (c : Char) (cs : List Char)
    (h : ∀ x ∈ c :: cs, p x = true) : collapseRuns p r (c :: cs) = [r] := by
  have hc := h c (List.mem_cons_self c cs)
  simp only [collapseRuns, collapseRunsAux, hc, if_true]
  rw [collapseRunsAux_all_true p r cs fun x hx => h x (List.mem_cons_of_mem c hx)]
  simp

theorem wsChar_not_illegal (c : Char) (h : isWsChar c = true) : isIllegalChar c = false := by
  simp only [isWsChar, Bool.or_eq_true, decide_eq_true_eq] at h
  rcases h with ((((h | h) | h) | h) | h) | h <;> subst h <;> decide

theorem sanitizeName_all_illegal (s : String) (hne : s.data ≠ [])
    (h : ∀ c ∈ s.data, isIllegalChar c = true) : sanitizeName s = "-" := by
  obtain ⟨c, cs, e⟩ : ∃ c cs, s.data = c :: cs := by
    cases hd : s.data with
    | nil => exact absurd hd hne
    | cons a l => exact ⟨a, l, rfl⟩
  unfold sanitizeName sanitizeL
  rw [e, collapseRuns_all_true _ _ _ _ (e ▸ h)]
  rfl

theorem sanitizeName_all_ws (s : String) (h : ∀ c ∈ s.data, isWsChar c = true) :
    sanitizeName s = "" := by
  unfold sanitizeName sanitizeL
  rw [show collapseRuns isIllegalChar '-' s.data = s.data from
    collapseRunsAux_of_not _ _ s.data false (fun c hc => wsChar_not_illegal c (h c hc))]
  cases hd : s.data with
  | nil => rfl
  | cons c cs =>
    rw [collapseRuns_all_true _ _ _ _ (hd ▸ h)]
    rfl

/-- C6 counterexample: an input consisting only of filesystem-illegal
characters sanitizes to a single hyphen (the illegal run is replaced by `-`
before trimming, and a hyphen is not whitespace), not to the empty string the
claim requires, so the caller's `"attachment"` fallback is not triggered. -/
theorem sanitizeName_all_illegal_counterexample :
    sanitizeName "***" = "-" ∧ sanitizeName "***" ≠ "" :=
  ⟨rfl, by decide⟩

/-- C6 (amended): `sanitizeName` replaces each maximal run of the characters
`\ / : " * ? < > |` with a single hyphen, collapses whitespace runs and
trims; `sanitize("a/b:c*d") = "a-b-c-d"`; an input consisting only of illegal
characters sanitizes to the single hyphen `"-"` (nonempty, so no fallback);
it is an all-whitespace (or empty) input that sanitizes to the empty string,
which triggers the caller's `"attachment"` fallback base name. -/
theorem sanitizeName_spec :
    sanitizeName "a/b:c*d" = "a-b-c-d" ∧
    (∀ s : String, s.data ≠ [] → (∀ c ∈ s.data, isIllegalChar c = true) →
      sanitizeName s = "-") ∧
    (∀ s : String, (∀ c ∈ s.data, isWsChar c = true) → sanitizeName s = "") ∧
    (∀ v : TemplateVars, computeBaseName " " v = "attachment") := by
  refine ⟨rfl, sanitizeName_all_illegal, sanitizeName_all_ws, fun v => ?_⟩
  simp only [computeBaseName]
  rw [applyVariables_verbatim _ v (by decide) (by decide) (by decide) (by decide) (by decide)]
  rfl

/-- Witness for `sanitizeName_spec` at concrete all-illegal and
all-whitespace inputs. -/
theorem sanitizeName_spec_witness :
    sanitizeName "::" = "-" ∧ sanitizeName "\t " = "" :=
  ⟨sanitizeName_spec.2.1 "::" (by decide) (by decide),
   sanitizeName_spec.2.2.1 "\t " (by decide)⟩

/-- C5 counterexample: for the empty base and a provided old name that does
not occur in it, `getCleanOriginalName` returns the `"Attachment"` fallback
(the final empty-check runs on every branch past the null/empty guard), not
the base unchanged as the claim requires. -/
theorem getCleanOriginalName_empty_base_counterexample :
    getCleanOriginalName "" (some "x") = "Attachment" ∧
    getCleanOriginalName "" (some "x") ≠ "" :=
  ⟨rfl, by decide⟩

/-- C5 (amended): a null old name returns the base unchanged (no fallback);
an empty old name is falsy and also returns the base unchanged; a non-empty
old name that does not occur in the base returns the base unchanged provided
the base is non-empty (an empty base hits the final `"Attachment"` fallback);
when the old name does occur, every occurrence with its surrounding
whitespace/hyphen/underscore padding is replaced by a single space, the
result is trimmed, and an empty result falls back to `"Attachment"`; in
particular `getCleanOriginalName "My Note - diagram" (some "My Note") =
"diagram"`. -/
theorem getCleanOriginalName_spec :
    (∀ base : String, getCleanOriginalName base none = base) ∧
    (∀ base : String, getCleanOriginalName base (some "") = base) ∧
    (∀ base old : String, old ≠ "" → base ≠ "" →
      containsSub base.data old.data = false →
      getCleanOriginalName base (some old) = base) ∧
    (∀ base old : String, old ≠ "" → containsSub base.data old.data = true →
      getCleanOriginalName base (some old) =
        (if (⟨trimWs (stripOldRegex base.data old.data)⟩ : String) = "" then "Attachment"
         else ⟨trimWs (stripOldRegex base.data old.data)⟩)) ∧
    getCleanOriginalName "My Note - diagram" (some "My Note") = "diagram" := by
  refine ⟨fun base => rfl, fun base => rfl, ?_, ?_, rfl⟩
  · intro base old hold hbase hc
    simp only [getCleanOriginalName, if_neg hold, hc, Bool.false_eq_true, if_false,
      if_neg hbase]
  · intro base old hold hc
    simp only [getCleanOriginalName, if_neg hold, hc, if_true]

/-- Witness for `getCleanOriginalName_spec`: a non-occurring old name leaves
a non-empty base unchanged, and an occurring old name is stripped. -/
theorem getCleanOriginalName_spec_witness :
    getCleanOriginalName "abc" (some "x") = "abc" ∧
    getCleanOriginalName "A - B" (some "A") =
      (if (⟨trimWs (stripOldRegex "A - B".data "A".data)⟩ : String) = "" then "Attachment"
       else ⟨trimWs (stripOldRegex "A - B".data "A".data)⟩) :=
  ⟨getCleanOriginalName_spec.2.2.1 "abc" "x" (by decide) (by decide) (by decide),
   getCleanOriginalName_spec.2.2.2.1 "A - B" "A" (by decide) (by decide)⟩

theorem rcGo_not_other (vault : Vault) (cp ext tf bn : String) :
    ∀ (fuel suffix : Nat) (fp : String) (k : VKind),
      vaultGet vault (rcGo vault cp ext tf bn fp suffix fuel) = some k →
      rcGo vault cp ext tf bn fp suffix fuel = cp := by
  intro fuel
  induction fuel with
  | zero => intro suffix fp k _; rfl
  | succ fuel ih =>
    intro suffix fp k h
    simp only [rcGo] at h ⊢
    cases hv : vaultGet vault fp with
    | none =>
      rw [hv] at h
      dsimp only at h
      rw [hv] at h
      exact absurd h (by simp)
    | some k' =>
      rw [hv] at h
      dsimp only at h ⊢
      by_cases hfp : fp = cp
      · rw [if_pos hfp]
        exact hfp
      · rw [if_neg hfp] at h ⊢
        exact ih _ _ k h

theorem rcGo_finds_free (vault : Vault) (cp ext tf bn dp : String) :
    ∀ (fuel suffix n : Nat), suffix + fuel = 500 → suffix ≤ n → n < 500 →
      (∀ i, suffix ≤ i → i < n →
        occupiedByOther vault cp (candPath tf bn ext dp i) = true) →
      occupiedByOther vault cp (candPath tf bn ext dp n) = false →
      rcGo vault cp ext tf bn (candPath tf bn ext dp suffix) suffix fuel =
        candPath tf bn ext dp n := by
  intro fuel
  induction fuel with
  | zero => intro suffix n h500 hsn hn _ _; omega
  | succ fuel ih =>
    intro suffix n h500 hsn hn hocc hfree
    rcases Nat.eq_or_lt_of_le hsn with heq | hlt
    · subst heq
      simp only [rcGo]
      cases hv : vaultGet vault (candPath tf bn ext dp suffix) with
      | none => dsimp only
      | some k =>
        dsimp only
        have hself : candPath tf bn ext dp suffix = cp := by
          by_contra hne
          rw [occupiedByOther, hv] at hfree
          simp [hne] at hfree
        rw [if_pos hself]
    · have hocc0 := hocc suffix (Nat.le_refl _) hlt
      simp only [occupiedByOther, Bool.and_eq_true, decide_eq_true_eq] at hocc0
      obtain ⟨hsome, hne⟩ := hocc0
      obtain ⟨k, hk⟩ := Option.isSome_iff_exists.mp hsome
      simp only [rcGo, hk, if_neg hne]
      exact ih (suffix + 1) n (by omega) hlt hn
        (fun i h1 h2 => hocc i (by omega) h2) hfree

theorem rcGo_exhausted (vault : Vault) (cp ext tf bn dp : String) :
    ∀ (fuel suffix : Nat), suffix + fuel = 500 →
      (∀ i, suffix ≤ i → i < 500 →
        occupiedByOther vault cp (candPath tf bn ext dp i) = true) →
      rcGo vault cp ext tf bn (candPath tf bn ext dp suffix) suffix fuel = cp := by
  intro fuel
  induction fuel with
  | zero => intro suffix _ _; rfl
  | succ fuel ih =>
    intro suffix h500 hocc
    have hocc0 := hocc suffix (Nat.le_refl _) (by omega)
    simp only [occupiedByOther, Bool.and_eq_true, decide_eq_true_eq] at hocc0
    obtain ⟨hsome, hne⟩ := hocc0
    obtain ⟨k, hk⟩ := Option.isSome_iff_exists.mp hsome
    simp only [rcGo, hk, if_neg hne]
    exact ih (suffix + 1) (by omega) (fun i h1 h2 => hocc i (by omega) h2)

/-- C2: `resolveCollision` returns the desired path when it is unoccupied or
occupied by the file being renamed itself; otherwise it probes the suffixed
candidates `"{baseName} {n}.{ext}"` in the target folder for n = 1, 2, 3, ...
and returns the first candidate that is unoccupied or self-occupied, within
the 500-attempt bound; if every one of the 500 probed paths is occupied by
another file it returns the file's current (unrenamed) path; consequently the
returned path is never occupied by an existing file other than the file being
renamed (for any number of pre-existing same-named files up to the bound). -/
theorem resolveCollision_spec (vault : Vault) (dp cp ext tf bn : String) :
    (occupiedByOther vault cp dp = false → resolveCollision vault dp cp ext tf bn = dp) ∧
    (∀ n, n < 500 →
      (∀ i, i < n → occupiedByOther vault cp (candPath tf bn ext dp i) = true) →
      occupiedByOther vault cp (candPath tf bn ext dp n) = false →
      resolveCollision vault dp cp ext tf bn = candPath tf bn ext dp n) ∧
    ((∀ i, i < 500 → occupiedByOther vault cp (candPath tf bn ext dp i) = true) →
      resolveCollision vault dp cp ext tf bn = cp) ∧
    (∀ k, vaultGet vault (resolveCollision vault dp cp ext tf bn) = some k →
      resolveCollision vault dp cp ext tf bn = cp) := by
  refine ⟨?_, ?_, ?_, ?_⟩
  · intro h
    exact rcGo_finds_free vault cp ext tf bn dp 500 0 0 rfl (Nat.le_refl _) (by omega)
      (fun i h1 h2 => by omega) h
  · intro n hn hocc hfree
    exact rcGo_finds_free vault cp ext tf bn dp 500 0 n rfl (Nat.zero_le _) hn
      (fun i _ h2 => hocc i h2) hfree
  · intro hocc
    exact rcGo_exhausted vault cp ext tf bn dp 500 0 rfl (fun i _ h2 => hocc i h2)
  · intro k h
    exact rcGo_not_other vault cp ext tf bn 500 0 dp k h

/-- Witness for `resolveCollision_spec`: with `a/x.png` already taken by
another file, the resolver lands on the first suffixed candidate
`"a/x 1.png"`. -/
theorem resolveCollision_spec_witness :
    resolveCollision [("a/x.png", VKind.file)] "a/x.png" "b/x.png" "png" "a" "x" =
      candPath "a" "x" "png" "a/x.png" 1 :=
  (resolveCollision_spec [("a/x.png", VKind.file)] "a/x.png" "b/x.png" "png" "a" "x").2.1
    1 (by decide) (fun i hi => by
      have hi0 : i = 0 := by omega
      subst hi0
      decide) (by decide)

/-- C3: the in-flight guard invariant of `processNoteAttachments`: a document
path already in the in-flight set makes the call return 0 immediately with
the state untouched; otherwise the in-flight set is restored (the path added
for the duration of the pass is removed again) on every exit path — in
particular when the pass body throws, in which case the pass also returns 0
with the world untouched. -/
theorem processNoteAttachments_guard (env : Env) (st : PState) (notePath : String)
    (old : Option String) :
    (st.inflight.contains notePath = true →
      processNoteAttachments env st notePath old = (0, st)) ∧
    (st.inflight.contains notePath = false →
      (processNoteAttachments env st notePath old).2.inflight = st.inflight) ∧
    (st.inflight.contains notePath = false → env.hostFault = true →
      processNoteAttachments env st notePath old = (0, st)) := by
  refine ⟨?_, ?_, ?_⟩
  · intro h
    simp only [processNoteAttachments, h]
    rfl
  · intro h
    simp only [processNoteAttachments, h, Bool.false_eq_true, if_false]
    cases passBody env st.world notePath old with
    | ok p =>
      cases p with
      | mk n w => simp [List.erase_cons_head]
    | error e => simp [List.erase_cons_head]
  · intro h hf
    simp only [processNoteAttachments, h, Bool.false_eq_true, if_false, passBody, hf, if_true]
    simp [List.erase_cons_head]

/-- Witness for `processNoteAttachments_guard`: a guarded call is a no-op, an
unguarded call restores the in-flight set, and a host fault still releases
the guard and returns 0. -/
theorem processNoteAttachments_guard_witness :
    processNoteAttachments plainEnv { world := picWorld, inflight := ["Note.md"] } "Note.md" none
      = (0, { world := picWorld, inflight := ["Note.md"] }) ∧
    (processNoteAttachments plainEnv { world := picWorld, inflight := [] } "Note.md" none).2.inflight
      = [] ∧
    processNoteAttachments faultEnv { world := picWorld, inflight := [] } "Note.md" none
      = (0, { world := picWorld, inflight := [] }) :=
  ⟨(processNoteAttachments_guard plainEnv ⟨picWorld, ["Note.md"]⟩ "Note.md" none).1 (by decide),
   (processNoteAttachments_guard plainEnv ⟨picWorld, []⟩ "Note.md" none).2.1 (by decide),
   (processNoteAttachments_guard faultEnv ⟨picWorld, []⟩ "Note.md" none).2.2 (by decide) (by decide)⟩

/-- C4: the allowlist policy of the per-target loop: when no rule matches an
attachment's extension and the rule list is non-empty, the target is skipped
entirely (the loop state is unchanged — no rename, no fallback to defaults);
when the rule list is empty, every target that passes the
already-processed/still-present checks is processed with the configured
default name pattern and default path pattern (and `pattern` placement),
regardless of extension. -/
theorem allowlist_policy (env : Env) (notePath : String) (old : Option String)
    (ls : LoopSt) (t : String × Nat) :
    (getRuleForExtension env.settings (extOf (livePath ls.renamedTo t.1)) = none →
      env.settings.rules ≠ [] →
      processTarget env notePath old ls t = ls) ∧
    (env.settings.rules = [] →
      processTarget env notePath old ls t =
        (if ls.processedPaths.contains (livePath ls.renamedTo t.1) then ls
         else if (vaultGet ls.vault (livePath ls.renamedTo t.1)).isNone then ls
         else
           processTargetCore env notePath old env.settings.defaultNamePattern
             env.settings.defaultPathPattern LocationMode.pattern ls t.1
             (livePath ls.renamedTo t.1) t.2)) := by
  constructor
  · intro hrule hne
    have hlen : 0 < env.settings.rules.length := List.length_pos.mpr hne
    simp only [processTarget, hrule]
    have hlen' : (env.settings.rules.length > 0) = True := eq_true hlen
    simp only [hlen', if_true]
    split_ifs <;> rfl
  · intro hrules
    have hrule : getRuleForExtension env.settings (extOf (livePath ls.renamedTo t.1)) = none := by
      simp [getRuleForExtension, hrules]
    simp only [processTarget, hrule, hrules, List.length_nil, gt_iff_lt, Nat.lt_irrefl,
      if_false]

/-- Witness for `allowlist_policy`: a `txt` attachment under a png-only rule
list is skipped, and with no rules at all the defaults branch is taken. -/
theorem allowlist_policy_witness :
    processTarget pngOnlyEnv "Note.md" none picLoopSt ("doc.txt", 0) = picLoopSt ∧
    processTarget plainEnv "Note.md" none picLoopSt ("pic.png", 0) =
      (if picLoopSt.processedPaths.contains (livePath picLoopSt.renamedTo "pic.png") then picLoopSt
       else if (vaultGet picLoopSt.vault (livePath picLoopSt.renamedTo "pic.png")).isNone then picLoopSt
       else
         processTargetCore plainEnv "Note.md" none plainEnv.settings.defaultNamePattern
           plainEnv.settings.defaultPathPattern LocationMode.pattern picLoopSt "pic.png"
           (livePath picLoopSt.renamedTo "pic.png") 0) :=
  ⟨(allowlist_policy pngOnlyEnv "Note.md" none picLoopSt ("doc.txt", 0)).1 (by decide) (by decide),
   (allowlist_policy plainEnv "Note.md" none picLoopSt ("pic.png", 0)).2 (by decide)⟩

/-- C1: evaluation of the engine at the failing input.  `Note.md` is
scope-valid and embeds one attachment; with the default name pattern
`"${filename} ${original}"` the first pass renames `pic.png` to
`attachments/Note pic.png` — but an immediately repeated pass, with no
changes to the vault or configuration in between, renames it AGAIN (to
`attachments/Note Note pic.png`), returning 1 instead of the 0 the
idempotence property requires: only the old document name is stripped from
the basename, so each pass prepends the current document name once more. -/
theorem processNoteAttachments_not_idempotent :
    isScopeValid noRuleSettings "Note.md" = true ∧
    picWorld.embeds ++ picWorld.links = ["pic.png"] ∧
    (processNoteAttachments plainEnv ⟨picWorld, []⟩ "Note.md" none).1 = 1 ∧
    vaultGet (processNoteAttachments plainEnv ⟨picWorld, []⟩ "Note.md" none).2.world.vault
      "attachments/Note pic.png" = some VKind.file ∧
    (processNoteAttachments plainEnv
      (processNoteAttachments plainEnv ⟨picWorld, []⟩ "Note.md" none).2 "Note.md" none).1 = 1 ∧
    vaultGet (processNoteAttachments plainEnv
        (processNoteAttachments plainEnv ⟨picWorld, []⟩ "Note.md" none).2 "Note.md" none).2.world.vault
      "attachments/Note Note pic.png" = some VKind.file :=
  ⟨rfl, rfl, rfl, rfl, rfl, rfl⟩

/-- C9: the debounce registry keeps at most one pending timer per document
path (every scheduler step preserves key-uniqueness), and a burst of three
rename-trigger events for the same markdown document path, each arriving
within the configured delay window of the previous one, results in exactly
one reconciliation pass — carrying the last event's old name — with the
registry entry removed when the deferred call fires. -/
theorem debounce_coalesces (settings : PluginSettings) (p o1 o2 o3 : String)
    (t1 t2 t3 tEnd : Nat)
    (hEn : settings.enableAutoRename = true)
    (hmd : extOf p = "md")
    (hscope : isScopeValid settings p = true)
    (h12 : t2 < t1 + settings.debounceDelay)
    (h23 : t3 < t2 + settings.debounceDelay)
    (hend : t3 + settings.debounceDelay ≤ tEnd) :
    (schedRun settings [(t1, p, o1), (t2, p, o2), (t3, p, o3)] tEnd).fired
        = [(p, some (getFileNameFromPath o3))] ∧
    (schedRun settings [(t1, p, o1), (t2, p, o2), (t3, p, o3)] tEnd).registry = [] ∧
    (∀ (s : SchedState) (ev : Nat × String × String),
      (s.registry.map Prod.fst).Nodup →
      ((schedStep settings s ev).registry.map Prod.fst).Nodup) := by
  have hno12 : ¬ (t1 + settings.debounceDelay ≤ t2) := by omega
  have hno23 : ¬ (t2 + settings.debounceDelay ≤ t3) := by omega
  have hrun : schedRun settings [(t1, p, o1), (t2, p, o2), (t3, p, o3)] tEnd =
      { registry := [], fired := [(p, some (getFileNameFromPath o3))] } := by
    simp [schedRun, schedStep, schedFireDue, onRenameEvent, schedTrigger, hEn, hmd,
      hscope, hno12, hno23, hend]
  refine ⟨by rw [hrun], by rw [hrun], ?_⟩
  intro s ev hnodup
  have h1 : ((schedFireDue ev.1 s).registry.map Prod.fst).Nodup :=
    hnodup.sublist ((List.filter_sublist _).map _)
  show ((onRenameEvent settings ev.1 ev.2.1 ev.2.2 (schedFireDue ev.1 s)).registry.map
      Prod.fst).Nodup
  unfold onRenameEvent
  split_ifs with hEn2 hsc
  · exact h1
  · unfold schedTrigger
    simp only [List.map_cons]
    refine List.nodup_cons.mpr ⟨?_, h1.sublist ((List.filter_sublist _).map _)⟩
    intro hmem
    obtain ⟨e, he, hfst⟩ := List.mem_map.mp hmem
    have := List.of_mem_filter he
    simp only [decide_eq_true_eq] at this
    exact this hfst
  · exact h1

/-- Witness for `debounce_coalesces`: three events at times 0, 1, 2 for the
same note with a 2000 ms delay produce exactly one pass by time 3000. -/
theorem debounce_coalesces_witness :
    (schedRun noRuleSettings [(0, "N.md", "Old.md"), (1, "N.md", "Mid.md"), (2, "N.md", "New.md")]
        3000).fired = [("N.md", some (getFileNameFromPath "New.md"))] :=
  (debounce_coalesces noRuleSettings "N.md" "Old.md" "Mid.md" "New.md" 0 1 2 3000
    (by decide) (by decide) (by decide) (by decide) (by decide) (by decide)).1

theorem splitOnChar_ne_nil (c : Char) : ∀ l : List Char, splitOnChar c l ≠ [] := by
  intro l
  cases l with
  | nil => simp [splitOnChar]
  | cons x xs =>
    simp only [splitOnChar]
    cases h : splitOnChar c xs with
    | nil => simp
    | cons a t => split_ifs <;> simp

theorem joinChar_splitOnChar (c : Char) : ∀ l : List Char, joinChar c (splitOnChar c l) = l := by
  intro l
  induction l with
  | nil => rfl
  | cons x xs ih =>
    simp only [splitOnChar]
    cases h : splitOnChar c xs with
    | nil => exact absurd h (splitOnChar_ne_nil c xs)
    | cons a t =>
      dsimp only
      by_cases hx : x = c
      · rw [if_pos hx, hx]
        show ([] : List Char) ++ c :: joinChar c (a :: t) = c :: xs
        rw [List.nil_append, ← h, ih]
      · rw [if_neg hx]
        cases t with
        | nil =>
          show x :: a = x :: xs
          have ha : a = xs := by
            have : joinChar c (splitOnChar c xs) = xs := ih
            rw [h] at this
            exact this
          rw [ha]
        | cons b t' =>
          show (x :: a) ++ c :: joinChar c (b :: t') = x :: xs
          have : a ++ c :: joinChar c (b :: t') = joinChar c (a :: b :: t') := rfl
          rw [List.cons_append, this, ← h, ih]

theorem splitOnChar_members_free (c : Char) :
    ∀ (l : List Char) (x : List Char), x ∈ splitOnChar c l → c ∉ x := by
  intro l
  induction l with
  | nil =>
    intro x hx
    simp only [splitOnChar, List.mem_singleton] at hx
    subst hx
    simp
  | cons y ys ih =>
    intro x hx
    simp only [splitOnChar] at hx
    cases h : splitOnChar c ys with
    | nil => exact absurd h (splitOnChar_ne_nil c ys)
    | cons a t =>
      rw [h] at hx
      dsimp only at hx
      by_cases hy : y = c
      · rw [if_pos hy] at hx
        rcases List.mem_cons.mp hx with h1 | h2
        · subst h1; simp
        · exact ih x (by rw [h]; exact h2)
      · rw [if_neg hy] at hx
        rcases List.mem_cons.mp hx with h1 | h2
        · subst h1
          intro hmem
          rcases List.mem_cons.mp hmem with h3 | h4
          · exact hy h3.symm
          · exact ih a (by rw [h]; exact List.mem_cons_self a t) h4
        · exact ih x (by rw [h]; exact List.mem_cons_of_mem a h2)

theorem splitOnChar_members_chars (c : Char) :
    ∀ (l x : List Char), x ∈ splitOnChar c l → ∀ ch ∈ x, ch ∈ l := by
  intro l
  induction l with
  | nil =>
    intro x hx ch hch
    simp only [splitOnChar, List.mem_singleton] at hx
    subst hx
    exact absurd hch (List.not_mem_nil ch)
  | cons y ys ih =>
    intro x hx ch hch
    simp only [splitOnChar] at hx
    cases h : splitOnChar c ys with
    | nil => exact absurd h (splitOnChar_ne_nil c ys)
    | cons a t =>
      rw [h] at hx
      dsimp only at hx
      by_cases hy : y = c
      · rw [if_pos hy] at hx
        rcases List.mem_cons.mp hx with h1 | h2
        · subst h1; exact absurd hch (List.not_mem_nil ch)
        · exact List.mem_cons_of_mem y (ih x (by rw [h]; exact h2) ch hch)
      · rw [if_neg hy] at hx
        rcases List.mem_cons.mp hx with h1 | h2
        · subst h1
          rcases List.mem_cons.mp hch with h3 | h4
          · subst h3; exact List.mem_cons_self ch ys
          · exact List.mem_cons_of_mem y
              (ih a (by rw [h]; exact List.mem_cons_self a t) ch h4)
        · exact List.mem_cons_of_mem y (ih x (by rw [h]; exact List.mem_cons_of_mem a h2) ch hch)

theorem splitOnChar_of_not_mem (c : Char) :
    ∀ l : List Char, c ∉ l → splitOnChar c l = [l] := by
  intro l
  induction l with
  | nil => intro _; rfl
  | cons x xs ih =>
    intro h
    have hx : x ≠ c := fun e => h (e ▸ List.mem_cons_self x xs)
    simp only [splitOnChar, ih (fun hm => h (List.mem_cons_of_mem x hm)), if_neg hx]

theorem splitOnChar_append_sep (c : Char) :
    ∀ (l₁ l₂ : List Char), c ∉ l₁ →
      splitOnChar c (l₁ ++ c :: l₂) = l₁ :: splitOnChar c l₂ := by
  intro l₁
  induction l₁ with
  | nil =>
    intro l₂ _
    simp only [List.nil_append, splitOnChar]
    cases h : splitOnChar c l₂ with
    | nil => exact absurd h (splitOnChar_ne_nil c l₂)
    | cons a t =>
      dsimp only
      simp
  | cons x xs ih =>
    intro l₂ h
    have hx : x ≠ c := fun e => h (e ▸ List.mem_cons_self x xs)
    have step : splitOnChar c ((x :: xs) ++ c :: l₂) =
        (match splitOnChar c (xs ++ c :: l₂) with
         | [] => [[]]
         | h :: t => if x = c then [] :: h :: t else (x :: h) :: t) := rfl
    rw [step, ih l₂ (fun hm => h (List.mem_cons_of_mem x hm))]
    dsimp only
    rw [if_neg hx]

theorem splitOnChar_joinChar_append (c : Char) :
    ∀ (cs : List (List Char)) (l₂ : List Char), cs ≠ [] → (∀ x ∈ cs, c ∉ x) →
      splitOnChar c (joinChar c cs ++ c :: l₂) = cs ++ splitOnChar c l₂ := by
  intro cs
  induction cs with
  | nil => intro l₂ h _; exact absurd rfl h
  | cons a rest ih =>
    intro l₂ _ hfree
    cases rest with
    | nil =>
      show splitOnChar c (a ++ c :: l₂) = a :: splitOnChar c l₂
      exact splitOnChar_append_sep c a l₂ (hfree a (List.mem_cons_self a []))
    | cons b rest' =>
      show splitOnChar c ((a ++ c :: joinChar c (b :: rest')) ++ c :: l₂) = _
      rw [List.append_assoc, List.cons_append,
        splitOnChar_append_sep c a _ (hfree a (List.mem_cons_self a _)),
        ih l₂ (by simp) (fun x hx => hfree x (List.mem_cons_of_mem a hx))]
      rfl

theorem splitOnChar_joinChar (c : Char) (cs : List (List Char)) (hne : cs ≠ [])
    (hfree : ∀ x ∈ cs, c ∉ x) : splitOnChar c (joinChar c cs) = cs := by
  cases cs with
  | nil => exact absurd rfl hne
  | cons a rest =>
    cases rest with
    | nil => exact splitOnChar_of_not_mem c a (hfree a (List.mem_cons_self a []))
    | cons b rest' =>
      show splitOnChar c (a ++ c :: joinChar c (b :: rest')) = _
      rw [splitOnChar_append_sep c a _ (hfree a (List.mem_cons_self a _)),
        splitOnChar_joinChar c (b :: rest') (by simp)
          (fun x hx => hfree x (List.mem_cons_of_mem a hx))]

theorem map_slashify_id : ∀ l : List Char, '\\' ∉ l → l.map slashify = l := by
  intro l
  induction l with
  | nil => intro _; rfl
  | cons x xs ih =>
    intro h
    have hx : x ≠ '\\' := fun e => h (e ▸ List.mem_cons_self x xs)
    simp only [List.map_cons, ih (fun hm => h (List.mem_cons_of_mem x hm)), slashify,
      if_neg hx]

theorem getLastD_mem {α : Type} : ∀ (l : List α) (d : α), l ≠ [] → l.getLastD d ∈ l := by
  intro l
  induction l with
  | nil => intro d h; exact absurd rfl h
  | cons a as ih =>
    intro d _
    cases as with
    | nil => simp [List.getLastD]
    | cons b bs =>
      rw [List.getLastD_cons]
      exact List.mem_cons_of_mem a (ih a (by simp))

theorem collapseRunsAux_chars (p : Char → Bool) (r : Char) :
    ∀ (l : List Char) (b : Bool) (c : Char), c ∈ collapseRunsAux p r b l →
      c = r ∨ (c ∈ l ∧ p c = false) := by
  intro l
  induction l with
  | nil => intro b c hc; exact absurd hc (List.not_mem_nil c)
  | cons x xs ih =>
    intro b c hc
    simp only [collapseRunsAux] at hc
    by_cases hx : p x = true
    · rw [if_pos hx] at hc
      by_cases hb : b = true
      · rw [if_pos hb] at hc
        rcases ih true c hc with h1 | ⟨h2, h3⟩
        · exact Or.inl h1
        · exact Or.inr ⟨List.mem_cons_of_mem x h2, h3⟩
      · rw [if_neg hb] at hc
        rcases List.mem_cons.mp hc with h1 | h2
        · exact Or.inl h1
        · rcases ih true c h2 with h1 | ⟨h2', h3⟩
          · exact Or.inl h1
          · exact Or.inr ⟨List.mem_cons_of_mem x h2', h3⟩
    · rw [if_neg hx] at hc
      rcases List.mem_cons.mp hc with h1 | h2
      · subst h1
        exact Or.inr ⟨List.mem_cons_self c xs, Bool.eq_false_iff.mpr hx⟩
      · rcases ih false c h2 with h1 | ⟨h2', h3⟩
        · exact Or.inl h1
        · exact Or.inr ⟨List.mem_cons_of_mem x h2', h3⟩

theorem trimWs_subset (l : List Char) : ∀ c, c ∈ trimWs l → c ∈ l := by
  intro c hc
  unfold trimWs at hc
  rw [List.mem_reverse] at hc
  have hc2 := (List.dropWhile_sublist isWsChar).subset hc
  rw [List.mem_reverse] at hc2
  exact (List.dropWhile_sublist isWsChar).subset hc2

theorem sanitizeName_chars (s : String) :
    ∀ c ∈ (sanitizeName s).data, isIllegalChar c = false := by
  intro c hc
  have hc1 : c ∈ sanitizeL s.data := hc
  unfold sanitizeL collapseRuns at hc1
  have hc2 := trimWs_subset _ c hc1
  rcases collapseRunsAux_chars isWsChar ' ' _ false c hc2 with h1 | ⟨h2, _⟩
  · subst h1; decide
  · rcases collapseRunsAux_chars isIllegalChar '-' _ false c h2 with h3 | ⟨_, h4⟩
    · subst h3; decide
    · exact h4

theorem digitChar_isDigit (n : Nat) (h : n < 10) : (Nat.digitChar n).isDigit = true := by
  interval_cases n <;> decide

theorem natStrGo_digits : ∀ (fuel n : Nat), ∀ c ∈ natStrGo fuel n, c.isDigit = true := by
  intro fuel
  induction fuel with
  | zero => intro n c hc; exact absurd hc (List.not_mem_nil c)
  | succ fuel ih =>
    intro n c hc
    simp only [natStrGo] at hc
    by_cases h : n < 10
    · rw [if_pos h, List.mem_singleton] at hc
      subst hc
      exact digitChar_isDigit n h
    · rw [if_neg h] at hc
      rcases List.mem_append.mp hc with h1 | h2
      · exact ih _ c h1
      · rw [List.mem_singleton] at h2
        subst h2
        exact digitChar_isDigit _ (Nat.mod_lt _ (by omega))

theorem isDigit_ne_slash (c : Char) (h : c.isDigit = true) : c ≠ '/' ∧ c ≠ '\\' :=
  ⟨fun e => by subst e; exact absurd h (by decide),
   fun e => by subst e; exact absurd h (by decide)⟩

theorem not_illegal_ne_slash (c : Char) (h : isIllegalChar c = false) : c ≠ '/' ∧ c ≠ '\\' :=
  ⟨fun e => by subst e; exact absurd h (by decide),
   fun e => by subst e; exact absurd h (by decide)⟩

theorem nameOf_chars (p : String) : ∀ c ∈ nameOf p, c ∈ p.data ∧ c ≠ '/' := by
  intro c hc
  unfold nameOf at hc
  have hmem := getLastD_mem (splitOnChar '/' p.data) [] (splitOnChar_ne_nil '/' p.data)
  exact ⟨splitOnChar_members_chars '/' p.data _ hmem c hc,
    fun e => splitOnChar_members_free '/' p.data _ hmem (e ▸ hc)⟩

theorem extOf_chars (p : String) : ∀ c ∈ (extOf p).data, c ∈ p.data ∧ c ≠ '/' := by
  intro c hc
  simp only [extOf] at hc
  by_cases hlen : (splitOnChar '.' (nameOf p)).length ≤ 1
  · rw [if_pos hlen] at hc
    exact absurd hc (List.not_mem_nil c)
  · rw [if_neg hlen] at hc
    have hmem := getLastD_mem (splitOnChar '.' (nameOf p)) [] (splitOnChar_ne_nil '.' (nameOf p))
    exact nameOf_chars p c (splitOnChar_members_chars '.' (nameOf p) _ hmem c hc)

theorem joinChar_chars (c : Char) :
    ∀ (cs : List (List Char)) (ch : Char), ch ∈ joinChar c cs →
      ch = c ∨ ∃ x ∈ cs, ch ∈ x := by
  intro cs
  induction cs with
  | nil => intro ch hch; exact absurd hch (List.not_mem_nil ch)
  | cons a rest ih =>
    intro ch hch
    cases rest with
    | nil => exact Or.inr ⟨a, List.mem_cons_self a [], hch⟩
    | cons b rest' =>
      rcases List.mem_append.mp hch with h1 | h2
      · exact Or.inr ⟨a, List.mem_cons_self a _, h1⟩
      · rcases List.mem_cons.mp h2 with h3 | h4
        · exact Or.inl h3
        · rcases ih ch h4 with h5 | ⟨x, hx, hchx⟩
          · exact Or.inl h5
          · exact Or.inr ⟨x, List.mem_cons_of_mem a hx, hchx⟩

theorem cleanPath_parts (p : String) (h : cleanPath p = true) :
    p.data ≠ [] ∧ (∀ x ∈ splitOnChar '/' p.data, x ≠ []) ∧ (∀ c ∈ p.data, c ≠ '\\') := by
  simp only [cleanPath, Bool.and_eq_true, Bool.not_eq_true', List.all_eq_true,
    decide_eq_true_eq] at h
  obtain ⟨⟨h1, h2⟩, h3⟩ := h
  refine ⟨?_, ?_, h3⟩
  · intro e
    rw [e] at h1
    exact absurd h1 (by simp)
  · intro x hx e
    have := h2 x hx
    rw [e] at this
    exact absurd this (by simp)

theorem splitOnChar_cons_sep (c : Char) (l : List Char) :
    splitOnChar c (c :: l) = [] :: splitOnChar c l := by
  simp only [splitOnChar]
  cases h : splitOnChar c l with
  | nil => exact absurd h (splitOnChar_ne_nil c l)
  | cons a t =>
    dsimp only
    simp

theorem parentOf_normalize (p q : String) (fn : List Char)
    (hp : cleanPath p = true) (hfn : fn ≠ [])
    (hfree : ∀ c ∈ fn, c ≠ '/' ∧ c ≠ '\\')
    (hq : q.data = (parentOf p).data ++ '/' :: fn) :
    parentOf (normalizePath q) = parentOf p := by
  obtain ⟨hne, hcomps, hnb⟩ := cleanPath_parts p hp
  have hfreeSlash : '/' ∉ fn := fun hm => (hfree '/' hm).1 rfl
  have hfreeBack : '\\' ∉ fn := fun hm => (hfree '\\' hm).2 rfl
  have hfnE : fn.isEmpty = false := by
    cases fn with
    | nil => exact absurd rfl hfn
    | cons a l => rfl
  by_cases hlen : (splitOnChar '/' p.data).length ≤ 1
  · have hpar : parentOf p = "/" := by
      simp only [parentOf, if_pos hlen]
    rw [hpar] at hq
    rw [hpar]
    have hqd : q.data = '/' :: '/' :: fn := hq
    have hmap : q.data.map slashify = q.data := by
      apply map_slashify_id
      rw [hqd]
      intro hm
      rcases List.mem_cons.mp hm with h1 | h2
      · exact absurd h1 (by decide)
      · rcases List.mem_cons.mp h2 with h3 | h4
        · exact absurd h3 (by decide)
        · exact hfreeBack h4
    have hsplit : splitOnChar '/' q.data = [] :: [] :: [fn] := by
      rw [hqd, splitOnChar_cons_sep, splitOnChar_cons_sep,
        splitOnChar_of_not_mem '/' fn hfreeSlash]
    have hnorm : normalizePath q = ⟨fn⟩ := by
      unfold normalizePath
      rw [hmap, hsplit]
      simp only [List.filter_cons, List.filter_nil, List.isEmpty_nil, Bool.not_true,
        Bool.false_eq_true, if_false, hfnE, Bool.not_false, if_true]
      rfl
    rw [hnorm]
    simp only [parentOf]
    rw [splitOnChar_of_not_mem '/' fn hfreeSlash]
    rfl
  · have hpar : parentOf p = ⟨joinChar '/' (splitOnChar '/' p.data).dropLast⟩ := by
      simp only [parentOf, if_neg hlen]
    have hdlne : (splitOnChar '/' p.data).dropLast ≠ [] := by
      intro e
      have hl := congrArg List.length e
      simp only [List.length_dropLast, List.length_nil] at hl
      exact hlen (by omega)
    have hdlmem : ∀ x ∈ (splitOnChar '/' p.data).dropLast, x ∈ splitOnChar '/' p.data :=
      fun x hx => (List.dropLast_sublist _).subset hx
    have hdlfree : ∀ x ∈ (splitOnChar '/' p.data).dropLast, '/' ∉ x :=
      fun x hx => splitOnChar_members_free '/' p.data x (hdlmem x hx)
    have hqd : q.data = joinChar '/' (splitOnChar '/' p.data).dropLast ++ '/' :: fn := by
      rw [hq, hpar]
    have hmap : q.data.map slashify = q.data := by
      apply map_slashify_id
      rw [hqd]
      intro hm
      rcases List.mem_append.mp hm with h1 | h2
      · rcases joinChar_chars '/' _ '\\' h1 with h3 | ⟨x, hx, hchx⟩
        · exact absurd h3 (by decide)
        · exact hnb '\\' (splitOnChar_members_chars '/' p.data x (hdlmem x hx) '\\' hchx) rfl
      · rcases List.mem_cons.mp h2 with h3 | h4
        · exact absurd h3 (by decide)
        · exact hfreeBack h4
    have hsplit : splitOnChar '/' q.data = (splitOnChar '/' p.data).dropLast ++ [fn] := by
      rw [hqd, splitOnChar_joinChar_append '/' _ _ hdlne hdlfree,
        splitOnChar_of_not_mem '/' fn hfreeSlash]
    have hfilter : ((splitOnChar '/' p.data).dropLast ++ [fn]).filter (fun l => !l.isEmpty) =
        (splitOnChar '/' p.data).dropLast ++ [fn] := by
      apply List.filter_eq_self.mpr
      intro x hx
      rcases List.mem_append.mp hx with h1 | h2
      · have hxne := hcomps x (hdlmem x h1)
        cases x with
        | nil => exact absurd rfl hxne
        | cons a l => rfl
      · rw [List.mem_singleton] at h2
        subst h2
        rw [hfnE]
        rfl
    have hnorm : normalizePath q = ⟨joinChar '/' ((splitOnChar '/' p.data).dropLast ++ [fn])⟩ := by
      unfold normalizePath
      rw [hmap, hsplit, hfilter]
    rw [hnorm, hpar]
    have hsplit2 : splitOnChar '/' (joinChar '/' ((splitOnChar '/' p.data).dropLast ++ [fn])) =
        (splitOnChar '/' p.data).dropLast ++ [fn] := by
      apply splitOnChar_joinChar
      · simp
      · intro x hx
        rcases List.mem_append.mp hx with h1 | h2
        · exact hdlfree x h1
        · rw [List.mem_singleton] at h2
          subst h2
          exact hfreeSlash
    simp only [parentOf]
    rw [hsplit2]
    have hlen2 : ¬ ((splitOnChar '/' p.data).dropLast ++ [fn]).length ≤ 1 := by
      have hdlpos : 0 < (splitOnChar '/' p.data).dropLast.length :=
        List.length_pos.mpr hdlne
      simp only [List.length_append, List.length_singleton]
      omega
    rw [if_neg hlen2, List.dropLast_concat]

theorem strData_slash (a b : String) : (a ++ "/" ++ b).data = a.data ++ '/' :: b.data := by
  rw [show (a ++ "/" ++ b).data = (a.data ++ ['/']) ++ b.data from rfl, List.append_assoc]
  rfl

theorem computeBaseName_chars (np : String) (v : TemplateVars) :
    (computeBaseName np v).data ≠ [] ∧
    ∀ c ∈ (computeBaseName np v).data, c ≠ '/' ∧ c ≠ '\\' := by
  unfold computeBaseName
  by_cases h : (sanitizeName (applyVariables np v)).length = 0
  · rw [if_pos h]
    exact ⟨by decide, by decide⟩
  · rw [if_neg h]
    constructor
    · intro e
      exact h (by rw [show (sanitizeName (applyVariables np v)).length =
          (sanitizeName (applyVariables np v)).data.length from rfl, e]; rfl)
    · intro c hc
      exact not_illegal_ne_slash c (sanitizeName_chars _ c hc)

theorem rcGo_shape (vault : Vault) (cp ext tf bn : String) :
    ∀ (fuel suffix : Nat) (fp : String),
      rcGo vault cp ext tf bn fp suffix fuel = cp ∨
      rcGo vault cp ext tf bn fp suffix fuel = fp ∨
      ∃ k, rcGo vault cp ext tf bn fp suffix fuel =
        normalizePath (tf ++ "/" ++ bn ++ " " ++ natStr k ++ "." ++ ext) := by
  intro fuel
  induction fuel with
  | zero => intro suffix fp; exact Or.inl rfl
  | succ fuel ih =>
    intro suffix fp
    simp only [rcGo]
    cases hv : vaultGet vault fp with
    | none => exact Or.inr (Or.inl rfl)
    | some k =>
      dsimp only
      by_cases hfp : fp = cp
      · rw [if_pos hfp]
        exact Or.inl hfp
      · rw [if_neg hfp]
        rcases ih (suffix + 1)
            (normalizePath (tf ++ "/" ++ bn ++ " " ++ natStr (suffix + 1) ++ "." ++ ext)) with
          h1 | h2 | ⟨k', h3⟩
        · exact Or.inl h1
        · exact Or.inr (Or.inr ⟨suffix + 1, h2⟩)
        · exact Or.inr (Or.inr ⟨k', h3⟩)

theorem processTargetCore_original_eq (env : Env) (notePath : String) (old : Option String)
    (np pp : String) (ls : LoopSt) (op curPath : String) (idx : Nat) :
    processTargetCore env notePath old np pp LocationMode.original ls op curPath idx =
      (let bn := computeBaseName np (mkVars env notePath old curPath idx)
       let dp := normalizePath (parentOf curPath ++ "/" ++ (bn ++ "." ++ extOf curPath))
       if dp = curPath then { ls with processedPaths := curPath :: ls.processedPaths }
       else
         let fp := resolveCollision ls.vault dp curPath (extOf curPath) (parentOf curPath) bn
         if fp = curPath then { ls with processedPaths := curPath :: ls.processedPaths }
         else if env.renameOk curPath fp then
           { vault := renameInVault ls.vault curPath fp
             embeds := rewriteLinks ls.embeds curPath fp
             links := rewriteLinks ls.links curPath fp
             processedPaths := fp :: ls.processedPaths
             checkedFolders := ls.checkedFolders
             renamedTo := (op, fp) :: ls.renamedTo
             renameCount := ls.renameCount + 1 }
         else ls) := by
  have hmode : (LocationMode.original ≠ LocationMode.original) = False := by simp
  simp only [processTargetCore, computeTargetFolder, if_pos rfl, hmode, decide_False,
    Bool.and_false, Bool.false_eq_true, if_false]
  rfl

/-- C8: under `locationMode = Original` the target folder is the attachment's
current parent folder, and the per-target body either performs no move
(marking only, or a failed / skipped rename leaving the state as it was) or
renames the attachment to a final path — desired or collision-suffixed —
whose parent folder is that same parent folder, for any well-formed current
path. -/
theorem locationMode_original_keeps_folder (env : Env) (notePath : String)
    (old : Option String) (np pp : String) (ls : LoopSt) (op curPath : String) (idx : Nat)
    (hclean : cleanPath curPath = true) :
    computeTargetFolder LocationMode.original pp notePath curPath = parentOf curPath ∧
    ∃ fp : String,
      (fp = curPath ∨ parentOf fp = parentOf curPath) ∧
      (processTargetCore env notePath old np pp LocationMode.original ls op curPath idx =
          { ls with processedPaths := curPath :: ls.processedPaths } ∨
       processTargetCore env notePath old np pp LocationMode.original ls op curPath idx = ls ∨
       processTargetCore env notePath old np pp LocationMode.original ls op curPath idx =
          { vault := renameInVault ls.vault curPath fp
            embeds := rewriteLinks ls.embeds curPath fp
            links := rewriteLinks ls.links curPath fp
            processedPaths := fp :: ls.processedPaths
            checkedFolders := ls.checkedFolders
            renamedTo := (op, fp) :: ls.renamedTo
            renameCount := ls.renameCount + 1 }) := by
  refine ⟨rfl, ?_⟩
  obtain ⟨hpne, hpcomps, hpnb⟩ := cleanPath_parts curPath hclean
  rw [processTargetCore_original_eq]
  have hbnfacts := computeBaseName_chars np (mkVars env notePath old curPath idx)
  have hexfacts : ∀ c ∈ (extOf curPath).data, c ≠ '/' ∧ c ≠ '\\' := fun c hc =>
    ⟨(extOf_chars curPath c hc).2, hpnb c (extOf_chars curPath c hc).1⟩
  generalize hbngen : computeBaseName np (mkVars env notePath old curPath idx) = bn
  rw [hbngen] at hbnfacts
  obtain ⟨hbnne, hbnchars⟩ := hbnfacts
  generalize hexgen : extOf curPath = ext
  rw [hexgen] at hexfacts
  have hbncons : ∀ tail : List Char, bn.data ++ tail ≠ [] := by
    intro tail e
    cases hd : bn.data with
    | nil => exact hbnne hd
    | cons a l => rw [hd] at e; exact absurd e (by simp)
  have hparentA : parentOf (normalizePath (parentOf curPath ++ "/" ++ (bn ++ "." ++ ext))) =
      parentOf curPath := by
    apply parentOf_normalize curPath _ (bn.data ++ '.' :: ext.data) hclean (hbncons _)
    · intro c hc
      rcases List.mem_append.mp hc with h1 | h2
      · exact hbnchars c h1
      · rcases List.mem_cons.mp h2 with h3 | h4
        · subst h3; exact ⟨by decide, by decide⟩
        · exact hexfacts c h4
    · have e1 : (bn ++ "." ++ ext).data = bn.data ++ '.' :: ext.data := by
        rw [show (bn ++ "." ++ ext).data = (bn.data ++ ['.']) ++ ext.data from rfl,
          List.append_assoc]
        rfl
      rw [strData_slash, e1]
  have hparentB : ∀ k : Nat, parentOf (normalizePath (parentOf curPath ++ "/" ++ bn ++ " " ++
      natStr k ++ "." ++ ext)) = parentOf curPath := by
    intro k
    apply parentOf_normalize curPath _
      (bn.data ++ ' ' :: ((natStr k).data ++ '.' :: ext.data)) hclean (hbncons _)
    · intro c hc
      rcases List.mem_append.mp hc with h1 | h2
      · exact hbnchars c h1
      · rcases List.mem_cons.mp h2 with h3 | h4
        · subst h3; exact ⟨by decide, by decide⟩
        · rcases List.mem_append.mp h4 with h5 | h6
          · exact isDigit_ne_slash c (natStrGo_digits _ _ c h5)
          · rcases List.mem_cons.mp h6 with h7 | h8
            · subst h7; exact ⟨by decide, by decide⟩
            · exact hexfacts c h8
    · rw [show (parentOf curPath ++ "/" ++ bn ++ " " ++ natStr k ++ "." ++ ext).data =
          (((((parentOf curPath).data ++ ['/']) ++ bn.data) ++ [' ']) ++
            (natStr k).data ++ ['.']) ++ ext.data from rfl]
      simp only [List.append_assoc]
      rfl
  by_cases hd : normalizePath (parentOf curPath ++ "/" ++ (bn ++ "." ++ ext)) = curPath
  · refine ⟨curPath, Or.inl rfl, Or.inl ?_⟩
    rw [if_pos hd]
  · set fp := resolveCollision ls.vault
      (normalizePath (parentOf curPath ++ "/" ++ (bn ++ "." ++ ext)))
      curPath ext (parentOf curPath) bn with hfp
    have hfp' : fp = rcGo ls.vault curPath ext (parentOf curPath) bn
        (normalizePath (parentOf curPath ++ "/" ++ (bn ++ "." ++ ext))) 0 500 := hfp
    refine ⟨fp, ?_, ?_⟩
    · rcases rcGo_shape ls.vault curPath ext (parentOf curPath) bn 500 0
          (normalizePath (parentOf curPath ++ "/" ++ (bn ++ "." ++ ext))) with h1 | h2 | ⟨k, h3⟩
      · exact Or.inl (hfp' ▸ h1)
      · refine Or.inr ?_
        rw [hfp', h2]
        exact hparentA
      · refine Or.inr ?_
        rw [hfp', h3]
        exact hparentB k
    · rw [if_neg hd]
      by_cases hfc : fp = curPath
      · rw [if_pos hfc]
        exact Or.inl rfl
      · rw [if_neg hfc]
        by_cases hro : env.renameOk curPath fp
        · rw [if_pos hro]
          exact Or.inr (Or.inr rfl)
        · rw [if_neg hro]
          exact Or.inr (Or.inl rfl)

/-- Witness for `locationMode_original_keeps_folder` at a concrete clean
path. -/
theorem locationMode_original_keeps_folder_witness :
    computeTargetFolder LocationMode.original "./assets" "Note.md" "a/pic.png" =
      parentOf "a/pic.png" ∧
    ∃ fp : String,
      (fp = "a/pic.png" ∨ parentOf fp = parentOf "a/pic.png") ∧
      (processTargetCore plainEnv "Note.md" none "${original}" "./assets"
          LocationMode.original picLoopSt "a/pic.png" "a/pic.png" 0 =
          { picLoopSt with processedPaths := "a/pic.png" :: picLoopSt.processedPaths } ∨
       processTargetCore plainEnv "Note.md" none "${original}" "./assets"
          LocationMode.original picLoopSt "a/pic.png" "a/pic.png" 0 = picLoopSt ∨
       processTargetCore plainEnv "Note.md" none "${original}" "./assets"
          LocationMode.original picLoopSt "a/pic.png" "a/pic.png" 0 =
          { vault := renameInVault picLoopSt.vault "a/pic.png" fp
            embeds := rewriteLinks picLoopSt.embeds "a/pic.png" fp
            links := rewriteLinks picLoopSt.links "a/pic.png" fp
            processedPaths := fp :: picLoopSt.processedPaths
            checkedFolders := picLoopSt.checkedFolders
            renamedTo := ("a/pic.png", fp) :: picLoopSt.renamedTo
            renameCount := picLoopSt.renameCount + 1 }) :=
  locationMode_original_keeps_folder plainEnv "Note.md" none "${original}" "./assets"
    picLoopSt "a/pic.png" "a/pic.png" 0 (by decide)

end VAttach
